import Mathlib

/-!
Verification of the k-mer counting core of `yamad/kmer-count`.

Sequences are byte strings, embedded as `List Nat` (one `Nat` per byte;
`A = 65`, `C = 67`, `G = 71`, `T = 84`).  The canonical implementation lives in
`src/src/lib.rs`; `src/kmers_iterator.rs` and `src/main.rs` are earlier
rewrites of the same logic.
-/

namespace KmerCount

/-- Error type `KmerError` of `src/src/lib.rs`.  `IncorrectBases` carries the
bytes collected by `check_bases` (a Rust `String`, here its byte list). -/
inductive KmerError where
  | KmerLengthTooSmall (k : Nat)
  | KmerLengthTooLong (k : Nat) (seq_len : Nat)
  | IncorrectBases (bases : List Nat)
  deriving DecidableEq

/-- `KmerRecord` of `src/src/lib.rs`: one ranked entry, a k-mer and its count. -/
structure KmerRecord where
  seq : List Nat
  count : Nat
  deriving DecidableEq

instance {ε α : Type} [DecidableEq ε] [DecidableEq α] : DecidableEq (Except ε α) := fun a b =>
  match a, b with
  | Except.error e1, Except.error e2 =>
      if h : e1 = e2 then isTrue (congrArg Except.error h)
      else isFalse (fun hc => h (Except.error.inj hc))
  | Except.error _, Except.ok _ => isFalse (fun hc => Except.noConfusion hc)
  | Except.ok _, Except.error _ => isFalse (fun hc => Except.noConfusion hc)
  | Except.ok v1, Except.ok v2 =>
      if h : v1 = v2 then isTrue (congrArg Except.ok h)
      else isFalse (fun hc => h (Except.ok.inj hc))

/-- Rust `slice::windows(k)` collected to a list: every contiguous length-`k`
window of the slice, left to right.  (In the sources it is only reached with
`k ≥ 1`.) -/
def windows (k : Nat) : List Nat → List (List Nat)
  | [] => []
  | b :: rest =>
      if rest.length + 1 < k then []
      else (b :: rest).take k :: windows k rest

/-- `kmers` of `src/src/lib.rs` (lines 85-98), with the produced iterator
collected to a list: `k <= 0` (for `usize`, exactly `k = 0`) yields
`KmerLengthTooSmall`, then a sequence shorter than `k` yields
`KmerLengthTooLong`, otherwise all windows of length `k`. -/
def kmers (sequence : List Nat) (k : Nat) : Except KmerError (List (List Nat)) :=
  if k = 0 then
    Except.error (KmerError.KmerLengthTooSmall k)
  else if sequence.length < k then
    Except.error (KmerError.KmerLengthTooLong k sequence.length)
  else
    Except.ok (windows k sequence)

/-- Byte-wise lexicographic "strictly less", exactly Rust's slice/`str`
comparison returning `Ordering::Less`: compare elementwise, a strict prefix is
smaller. -/
def lexLt : List Nat → List Nat → Bool
  | [], [] => false
  | [], _ :: _ => true
  | _ :: _, [] => false
  | a :: as, b :: bs => if a < b then true else if b < a then false else lexLt as bs

/-- Comparator of the first `sort_by` pass in `count_kmers`
(`a.seq.cmp(b.seq)`): `a` may precede `b` when `a.seq` is not greater. -/
def seqLe (a b : KmerRecord) : Prop := lexLt b.seq a.seq = false

instance : DecidableRel seqLe :=
  fun a b => inferInstanceAs (Decidable (lexLt b.seq a.seq = false))

/-- Comparator of the second `sort_by` pass in `count_kmers`
(`a.count.cmp(&b.count).reverse()`): `a` may precede `b` when its count is not
smaller, giving descending counts. -/
def countGe (a b : KmerRecord) : Prop := b.count ≤ a.count

instance : DecidableRel countGe := fun a b => Nat.decLe b.count a.count

/-- The `HashMap` counter of `count_kmers`, materialised in first-occurrence
order: one record per distinct window, holding how often that window occurs.
(The real `HashMap` iterates in an unspecified order; any order is a
permutation of this list, and the determinism theorem shows the final result
does not depend on it.) -/
def counterRecords (ws : List (List Nat)) : List KmerRecord :=
  ws.dedup.map (fun w => KmerRecord.mk w (ws.count w))

/-- The two consecutive stable `sort_by` passes of `count_kmers`: first sort
k-mers alphabetically, then (stably) sort by descending count.  Rust's
`sort_by` is stable, and `List.insertionSort` is a stable sort. -/
def sortRecords (l : List KmerRecord) : List KmerRecord :=
  List.insertionSort countGe (List.insertionSort seqLe l)

/-- `count_kmers` of `src/src/lib.rs` (lines 57-79): propagate any `kmers`
error via `?`, otherwise aggregate counts and sort into ranked order. -/
def count_kmers (sequence : List Nat) (k : Nat) : Except KmerError (List KmerRecord) :=
  match kmers sequence k with
  | Except.error e => Except.error e
  | Except.ok ws => Except.ok (sortRecords (counterRecords ws))

/-- Membership in `b"ATCG"` (bytes 65, 84, 67, 71), as tested by
`check_bases`. -/
def validBase (b : Nat) : Bool := b = 65 || b = 84 || b = 67 || b = 71

/-- `check_bases` of `src/src/lib.rs` (lines 101-115): push every byte outside
`ATCG` onto `bad_bases` (one push per occurrence, in sequence order); error
with the collected bytes when any were found. -/
def check_bases (seq : List Nat) : Except KmerError Unit :=
  let bad_bases := seq.filter (fun b => !validBase b)
  if bad_bases.isEmpty then Except.ok ()
  else Except.error (KmerError.IncorrectBases bad_bases)

/-- The advisory produced for one record by `run_fasta_kmer_count`: the
`check_bases` error that gets printed as a warning, if any. -/
def warn_bases (seq : List Nat) : Option KmerError :=
  match check_bases seq with
  | Except.error e => some e
  | Except.ok _ => none

/-- Per-record behaviour of `run_fasta_kmer_count` (`src/src/lib.rs`,
lines 41-52): the warning printed from `check_bases`, paired with the
`count_kmers` result — validation and counting consume the sequence
independently. -/
def run_record (seq : List Nat) (k : Nat) :
    Option KmerError × Except KmerError (List KmerRecord) :=
  (warn_bases seq, count_kmers seq k)

/-- The `KMers` iterator of `src/kmers_iterator.rs`, collected: `next` returns
`None` when `k <= 0` or when the remaining string is shorter than `k`,
otherwise yields the first `k` bytes and advances the string by one. -/
def kmersIter (k : Nat) : List Nat → List (List Nat)
  | [] => []
  | b :: rest =>
      if k = 0 then []
      else if rest.length + 1 < k then []
      else (b :: rest).take k :: kmersIter k rest

/-- Error type `KMerError` of `src/main.rs` (fieldless variants). -/
inductive KMerErrorMain where
  | KmerLengthTooSmall
  | KmerLengthTooLong
  deriving DecidableEq

/-- `kmers` of `src/main.rs` (lines 140-156): same checks as the library
version, but the errors carry no data. -/
def kmersMain (sequence : List Nat) (k : Nat) : Except KMerErrorMain (List (List Nat)) :=
  if k = 0 then
    Except.error KMerErrorMain.KmerLengthTooSmall
  else if sequence.length < k then
    Except.error KMerErrorMain.KmerLengthTooLong
  else
    Except.ok (windows k sequence)

/-- `count_kmers` of `src/main.rs` (lines 159-181): it calls
`kmers(sequence, k).unwrap()`; `none` models the panic of `unwrap` on the
error branch, otherwise counting and sorting are as in the library version. -/
def count_kmersMain (sequence : List Nat) (k : Nat) : Option (List KmerRecord) :=
  match kmersMain sequence k with
  | Except.error _ => none
  | Except.ok ws => some (sortRecords (counterRecords ws))

/-- The strict ranked order of the specification: earlier entries have strictly
larger counts, or equal counts and lexicographically smaller k-mer. -/
def rankedLt (a b : KmerRecord) : Prop :=
  b.count < a.count ∨ (a.count = b.count ∧ lexLt a.seq b.seq = true)

theorem windows_eq_range_map (k : Nat) (hk : 1 ≤ k) :
    ∀ S : List Nat,
      windows k S = (List.range (S.length + 1 - k)).map (fun i => (S.drop i).take k) := by
  intro S
  induction S with
  | nil =>
      have h0 : 0 + 1 - k = 0 := by omega
      simp [windows, h0]
  | cons b rest ih =>
      by_cases h : rest.length + 1 < k
      · have h0 : rest.length + 1 + 1 - k = 0 := by omega
        simp [windows, h, h0]
      · have h1 : (b :: rest).length + 1 - k = (rest.length + 1 - k) + 1 := by
          simp only [List.length_cons]; omega
        rw [h1, List.range_succ_eq_map, List.map_cons, List.map_map]
        simp only [windows, if_neg h]
        refine congrArg₂ List.cons (by simp) ?_
        rw [ih]
        refine List.map_congr_left ?_
        intro i _
        simp [Function.comp, List.drop_succ_cons]

theorem windows_length (k : Nat) (hk : 1 ≤ k) (S : List Nat) :
    (windows k S).length = S.length + 1 - k := by
  rw [windows_eq_range_map k hk S]
  simp

/-- Claim C1: for every sequence `S` and every `k` with `1 ≤ k ≤ |S|`,
`kmers S k` succeeds and yields exactly `|S| - k + 1` windows, in left-to-right
order, the window at position `i` being `S[i..i+k]`, each of length exactly
`k`. -/
theorem kmers_window_spec (S : List Nat) (k : Nat) (hk : 1 ≤ k) (hkS : k ≤ S.length) :
    ∃ ws : List (List Nat), kmers S k = Except.ok ws ∧
      ws.length = S.length - k + 1 ∧
      ∀ i (h : i < ws.length),
        ws.get ⟨i, h⟩ = (S.drop i).take k ∧ (ws.get ⟨i, h⟩).length = k := by
  have hk0 : ¬ k = 0 := by omega
  have hlen : ¬ S.length < k := by omega
  refine ⟨windows k S, ?_, ?_, ?_⟩
  · simp [kmers, hk0, hlen]
  · rw [windows_length k hk S]; omega
  · intro i h
    have hlen2 := windows_length k hk S
    have hi : i < S.length + 1 - k := by omega
    have hget : (windows k S).get ⟨i, h⟩ = (S.drop i).take k := by
      simp only [List.get_eq_getElem]
      simp only [windows_eq_range_map k hk S]
      simp [List.getElem_map, List.getElem_range]
    refine ⟨hget, ?_⟩
    rw [hget]
    rw [List.length_take, List.length_drop]
    omega

/-- Witness for C1 at `S = "ABCD"`, `k = 2`. -/
theorem kmers_window_spec_witness :
    ∃ ws : List (List Nat), kmers [65, 66, 67, 68] 2 = Except.ok ws ∧
      ws.length = [65, 66, 67, 68].length - 2 + 1 ∧
      ∀ i (h : i < ws.length),
        ws.get ⟨i, h⟩ = (([65, 66, 67, 68] : List Nat).drop i).take 2 ∧
          (ws.get ⟨i, h⟩).length = 2 :=
  kmers_window_spec [65, 66, 67, 68] 2 (by decide) (by decide)

/-- Claim C5: `kmers` fails with `KmerLengthTooSmall` exactly when `k = 0`
(for every sequence, the `k`-validity check coming first), fails with
`KmerLengthTooLong` carrying `k` and `seq_len = |S|` exactly when `1 ≤ k` and
`|S| < k`, and succeeds otherwise. -/
theorem kmers_error_spec (S : List Nat) (k : Nat) :
    (kmers S k = Except.error (KmerError.KmerLengthTooSmall k) ↔ k = 0) ∧
    (kmers S k = Except.error (KmerError.KmerLengthTooLong k S.length) ↔
      1 ≤ k ∧ S.length < k) ∧
    ((∃ ws, kmers S k = Except.ok ws) ↔ 1 ≤ k ∧ k ≤ S.length) := by
  refine ⟨?_, ?_, ?_⟩
  · unfold kmers
    split_ifs with h1 h2
    · exact ⟨fun _ => h1, fun _ => rfl⟩
    · constructor
      · intro h
        exact absurd h (by simp)
      · intro h
        exact absurd h h1
    · constructor
      · intro h
        exact absurd h (by simp)
      · intro h
        exact absurd h h1
  · unfold kmers
    split_ifs with h1 h2
    · constructor
      · intro h
        exact absurd h (by simp)
      · intro h
        exact absurd h.1 (by omega)
    · exact ⟨fun _ => ⟨by omega, h2⟩, fun _ => rfl⟩
    · constructor
      · intro h
        exact absurd h (by simp)
      · intro h
        exact absurd h.2 h2
  · unfold kmers
    split_ifs with h1 h2
    · constructor
      · rintro ⟨ws, h⟩
        exact absurd h (by simp)
      · intro h
        exact absurd h.1 (by omega)
    · constructor
      · rintro ⟨ws, h⟩
        exact absurd h (by simp)
      · intro h
        exact absurd h.2 (by omega)
    · exact ⟨fun _ => ⟨by omega, by omega⟩, fun _ => ⟨windows k S, rfl⟩⟩

/-- Claim C6: `count_kmers` has no failure modes of its own — it returns an
error exactly when `kmers` does, and then it is the very same error (so no
partial frequency table exists on the error path). -/
theorem count_kmers_error_iff (S : List Nat) (k : Nat) (e : KmerError) :
    count_kmers S k = Except.error e ↔ kmers S k = Except.error e := by
  unfold count_kmers
  cases h : kmers S k <;> simp

theorem kmersIter_eq_windows (k : Nat) (hk : 1 ≤ k) :
    ∀ S : List Nat, kmersIter k S = windows k S := by
  intro S
  induction S with
  | nil => rfl
  | cons b rest ih =>
      have hk0 : ¬ k = 0 := by omega
      simp only [kmersIter, windows, if_neg hk0, ih]

theorem kmersIter_eq_nil_of_short (k : Nat) (S : List Nat) (h : S.length < k) :
    kmersIter k S = [] := by
  cases S with
  | nil => rfl
  | cons b rest =>
      by_cases hk0 : k = 0
      · simp [kmersIter, hk0]
      · have : rest.length + 1 < k := by simp at h; omega
        simp [kmersIter, hk0, this]

theorem kmersIter_zero (S : List Nat) : kmersIter 0 S = [] := by
  cases S <;> simp [kmersIter]

/-- Claim C9: the lazy `KMers` iterator of `src/kmers_iterator.rs` and the
windows-based `kmers` of `src/src/lib.rs` agree on valid input
(`1 ≤ k ≤ |S|`): same windows in the same order; for `k = 0` or `k > |S|` the
iterator yields nothing while the function returns an error. -/
theorem kmersIter_agrees_kmers (S : List Nat) (k : Nat) :
    (1 ≤ k → k ≤ S.length → ∃ ws, kmers S k = Except.ok ws ∧ kmersIter k S = ws) ∧
    (k = 0 → kmersIter k S = [] ∧
      kmers S k = Except.error (KmerError.KmerLengthTooSmall k)) ∧
    (1 ≤ k → S.length < k → kmersIter k S = [] ∧
      kmers S k = Except.error (KmerError.KmerLengthTooLong k S.length)) := by
  refine ⟨?_, ?_, ?_⟩
  · intro hk hkS
    refine ⟨windows k S, ?_, kmersIter_eq_windows k hk S⟩
    have hk0 : ¬ k = 0 := by omega
    have hlen : ¬ S.length < k := by omega
    simp [kmers, hk0, hlen]
  · intro hk0
    subst hk0
    exact ⟨kmersIter_zero S, by simp [kmers]⟩
  · intro hk hS
    have hk0 : ¬ k = 0 := by omega
    exact ⟨kmersIter_eq_nil_of_short k S hS, by simp [kmers, hk0, hS]⟩

/-- Witness for C9 at `S = "ABCD"`, `k = 2`, `k = 0` and `k = 10`. -/
theorem kmersIter_agrees_kmers_witness :
    (∃ ws, kmers [65, 66, 67, 68] 2 = Except.ok ws ∧ kmersIter 2 [65, 66, 67, 68] = ws) ∧
    (kmersIter 0 [65, 66, 67, 68] = [] ∧
      kmers [65, 66, 67, 68] 0 = Except.error (KmerError.KmerLengthTooSmall 0)) ∧
    (kmersIter 10 [65, 66, 67, 68] = [] ∧
      kmers [65, 66, 67, 68] 10 = Except.error (KmerError.KmerLengthTooLong 10 4)) :=
  ⟨(kmersIter_agrees_kmers [65, 66, 67, 68] 2).1 (by decide) (by decide),
   (kmersIter_agrees_kmers [65, 66, 67, 68] 0).2.1 rfl,
   (kmersIter_agrees_kmers [65, 66, 67, 68] 10).2.2 (by decide) (by decide)⟩

/-- Claim C10: in the `src/main.rs` rewrite, `count_kmers` unwraps the `kmers`
result: under `1 ≤ k ≤ |S|` the unwrap never panics (a value is returned),
while for `k = 0` or `k > |S|` the call panics (modelled as `none`) instead of
returning an error value. -/
theorem count_kmersMain_unwrap_spec (S : List Nat) (k : Nat) :
    (1 ≤ k → k ≤ S.length → ∃ r, count_kmersMain S k = some r) ∧
    ((k = 0 ∨ S.length < k) → count_kmersMain S k = none) := by
  constructor
  · intro hk hkS
    have hk0 : ¬ k = 0 := by omega
    have hlen : ¬ S.length < k := by omega
    refine ⟨sortRecords (counterRecords (windows k S)), ?_⟩
    simp [count_kmersMain, kmersMain, hk0, hlen]
  · intro h
    rcases h with h0 | hshort
    · simp [count_kmersMain, kmersMain, h0]
    · by_cases hk0 : k = 0
      · simp [count_kmersMain, kmersMain, hk0]
      · simp [count_kmersMain, kmersMain, hk0, hshort]

/-- Witness for C10 at `S = "ABCD"` with `k = 2` and `k = 0`. -/
theorem count_kmersMain_unwrap_spec_witness :
    (∃ r, count_kmersMain [65, 66, 67, 68] 2 = some r) ∧
    count_kmersMain [65, 66, 67, 68] 0 = none :=
  ⟨(count_kmersMain_unwrap_spec [65, 66, 67, 68] 2).1 (by decide) (by decide),
   (count_kmersMain_unwrap_spec [65, 66, 67, 68] 0).2 (Or.inl rfl)⟩

theorem lexLt_nil_right : ∀ a : List Nat, lexLt a [] = false
  | [] => rfl
  | _ :: _ => rfl

theorem lexLt_asymm : ∀ a b : List Nat, lexLt a b = true → lexLt b a = false := by
  intro a
  induction a with
  | nil =>
      intro b _
      exact lexLt_nil_right b
  | cons a0 as ih =>
      intro b h
      cases b with
      | nil => simp [lexLt] at h
      | cons b0 bs =>
          by_cases hab : a0 < b0
          · have hba : ¬ b0 < a0 := by omega
            simp [lexLt, hab, hba]
          · by_cases hba : b0 < a0
            · simp [lexLt, hab, hba] at h
            · have h' : lexLt as bs = true := by simpa [lexLt, hab, hba] using h
              simp [lexLt, hab, hba, ih bs h']

theorem lexLe_trans :
    ∀ (a b c : List Nat), lexLt b a = false → lexLt c b = false → lexLt c a = false := by
  intro a
  induction a with
  | nil =>
      intro b c _ _
      exact lexLt_nil_right c
  | cons a0 as ih =>
      intro b c h1 h2
      cases b with
      | nil => simp [lexLt] at h1
      | cons b0 bs =>
          cases c with
          | nil => simp [lexLt] at h2
          | cons c0 cs =>
              by_cases hba : b0 < a0
              · simp [lexLt, hba] at h1
              · by_cases hcb : c0 < b0
                · simp [lexLt, hcb] at h2
                · have hca : ¬ c0 < a0 := by omega
                  by_cases hac : a0 < c0
                  · simp [lexLt, hca, hac]
                  · have hab : ¬ a0 < b0 := by omega
                    have hbc : ¬ b0 < c0 := by omega
                    have h1' : lexLt bs as = false := by simpa [lexLt, hba, hab] using h1
                    have h2' : lexLt cs bs = false := by simpa [lexLt, hcb, hbc] using h2
                    simp [lexLt, hca, hac, ih bs cs h1' h2']

theorem lexLt_eq_of_not_lt :
    ∀ a b : List Nat, lexLt a b = false → lexLt b a = false → a = b := by
  intro a
  induction a with
  | nil =>
      intro b h1 _
      cases b with
      | nil => rfl
      | cons x xs => simp [lexLt] at h1
  | cons a0 as ih =>
      intro b h1 h2
      cases b with
      | nil => simp [lexLt] at h2
      | cons b0 bs =>
          by_cases hab : a0 < b0
          · simp [lexLt, hab] at h1
          · by_cases hba : b0 < a0
            · simp [lexLt, hab, hba] at h2
            · have he : a0 = b0 := by omega
              have h1' : lexLt as bs = false := by simpa [lexLt, hab, hba] using h1
              have h2' : lexLt bs as = false := by simpa [lexLt, hab, hba] using h2
              rw [he, ih bs h1' h2']

theorem rankedLt_asymm (a b : KmerRecord) (h1 : rankedLt a b) (h2 : rankedLt b a) : False := by
  unfold rankedLt at h1 h2
  rcases h1 with h1 | ⟨he1, hl1⟩
  · rcases h2 with h2 | ⟨he2, _⟩ <;> omega
  · rcases h2 with h2 | ⟨_, hl2⟩
    · omega
    · have hf := lexLt_asymm a.seq b.seq hl1
      simp [hf] at hl2

theorem orderedInsert_seqLe_sorted (a : KmerRecord) :
    ∀ s : List KmerRecord, s.Pairwise seqLe →
      (List.orderedInsert seqLe a s).Pairwise seqLe := by
  intro s
  induction s with
  | nil =>
      intro _
      simp [List.orderedInsert]
  | cons b s' ih =>
      intro hs
      have hb := List.pairwise_cons.mp hs
      simp only [List.orderedInsert]
      by_cases h : seqLe a b
      · rw [if_pos h]
        refine List.pairwise_cons.mpr ⟨?_, hs⟩
        intro x hx
        rcases List.mem_cons.mp hx with hxb | hx'
        · subst hxb
          exact h
        · exact lexLe_trans a.seq b.seq x.seq h (hb.1 x hx')
      · rw [if_neg h]
        refine List.pairwise_cons.mpr ⟨?_, ih hb.2⟩
        intro x hx
        rcases (List.mem_orderedInsert seqLe).mp hx with hxa | hx'
        · rw [hxa]
          have hba : lexLt b.seq a.seq = true := by
            cases hv : lexLt b.seq a.seq
            · exact absurd hv h
            · rfl
          exact lexLt_asymm b.seq a.seq hba
        · exact hb.1 x hx'

theorem insertionSort_seqLe_sorted (l : List KmerRecord) :
    (List.insertionSort seqLe l).Pairwise seqLe := by
  induction l with
  | nil => simp [List.insertionSort]
  | cons a t ih =>
      simp only [List.insertionSort]
      exact orderedInsert_seqLe_sorted a _ ih

theorem orderedInsert_countGe_pairwise (a : KmerRecord) :
    ∀ s : List KmerRecord, s.Pairwise rankedLt →
      (∀ b ∈ s, lexLt a.seq b.seq = true) →
      (List.orderedInsert countGe a s).Pairwise rankedLt := by
  intro s
  induction s with
  | nil =>
      intro _ _
      simp [List.orderedInsert]
  | cons b s' ih =>
      intro hs ha
      have hb := List.pairwise_cons.mp hs
      simp only [List.orderedInsert]
      by_cases hcg : countGe a b
      · rw [if_pos hcg]
        refine List.pairwise_cons.mpr ⟨?_, hs⟩
        intro x hx
        have hxc : x.count ≤ a.count := by
          rcases List.mem_cons.mp hx with hxb | hx'
          · subst hxb
            exact hcg
          · have hrx := hb.1 x hx'
            unfold countGe at hcg
            unfold rankedLt at hrx
            rcases hrx with hrx | ⟨hrx, _⟩ <;> omega
        have hseq : lexLt a.seq x.seq = true := ha x hx
        unfold rankedLt
        rcases Nat.lt_or_ge x.count a.count with hlt | hge
        · exact Or.inl hlt
        · exact Or.inr ⟨by omega, hseq⟩
      · rw [if_neg hcg]
        refine List.pairwise_cons.mpr
          ⟨?_, ih hb.2 (fun x hx => ha x (List.mem_cons_of_mem b hx))⟩
        intro x hx
        rcases (List.mem_orderedInsert countGe).mp hx with hxa | hx'
        · rw [hxa]
          refine Or.inl ?_
          unfold countGe at hcg
          omega
        · exact hb.1 x hx'

theorem insertionSort_countGe_pairwise :
    ∀ l : List KmerRecord, l.Pairwise (fun a b => lexLt a.seq b.seq = true) →
      (List.insertionSort countGe l).Pairwise rankedLt := by
  intro l
  induction l with
  | nil =>
      intro _
      simp [List.insertionSort]
  | cons a t ih =>
      intro h
      have h' := List.pairwise_cons.mp h
      simp only [List.insertionSort]
      refine orderedInsert_countGe_pairwise a _ (ih h'.2) ?_
      intro b hb
      exact h'.1 b ((List.perm_insertionSort countGe t).mem_iff.mp hb)

theorem sortRecords_pairwise (l : List KmerRecord)
    (h : l.Pairwise (fun a b => a.seq ≠ b.seq)) :
    (sortRecords l).Pairwise rankedLt := by
  unfold sortRecords
  apply insertionSort_countGe_pairwise
  have hs : (List.insertionSort seqLe l).Pairwise seqLe := insertionSort_seqLe_sorted l
  have hne : (List.insertionSort seqLe l).Pairwise (fun a b => a.seq ≠ b.seq) :=
    (List.Perm.pairwise_iff (fun hxy => Ne.symm hxy) (List.perm_insertionSort seqLe l)).mpr h
  refine (hs.and hne).imp ?_
  intro a b hab
  rcases hab with ⟨h1, h2⟩
  cases hv : lexLt a.seq b.seq
  · exact absurd (lexLt_eq_of_not_lt a.seq b.seq hv h1) h2
  · rfl

theorem sortRecords_perm (l : List KmerRecord) : (sortRecords l).Perm l := by
  unfold sortRecords
  exact (List.perm_insertionSort countGe _).trans (List.perm_insertionSort seqLe _)

theorem counterRecords_pairwise_ne (ws : List (List Nat)) :
    (counterRecords ws).Pairwise (fun a b => a.seq ≠ b.seq) := by
  unfold counterRecords
  rw [List.pairwise_map]
  exact List.Pairwise.imp (fun h => h) (List.nodup_dedup ws)

theorem eq_of_perm_of_pairwise {α : Type} (R : α → α → Prop)
    (hasymm : ∀ a b, R a b → R b a → False) :
    ∀ l₁ l₂ : List α, l₁.Perm l₂ → l₁.Pairwise R → l₂.Pairwise R → l₁ = l₂ := by
  intro l₁
  induction l₁ with
  | nil =>
      intro l₂ hp _ _
      exact (hp.symm.eq_nil).symm
  | cons a t ih =>
      intro l₂ hp h1 h2
      cases l₂ with
      | nil => exact absurd hp.eq_nil (by simp)
      | cons b t₂ =>
          by_cases hab : a = b
          · subst hab
            rw [ih t₂ hp.cons_inv h1.of_cons h2.of_cons]
          · exfalso
            have ha2 : a ∈ b :: t₂ := hp.mem_iff.mp (List.mem_cons_self a t)
            have hb1 : b ∈ a :: t := hp.mem_iff.mpr (List.mem_cons_self b t₂)
            have ha2' : a ∈ t₂ := by
              rcases List.mem_cons.mp ha2 with h | h
              · exact absurd h hab
              · exact h
            have hb1' : b ∈ t := by
              rcases List.mem_cons.mp hb1 with h | h
              · exact absurd h.symm hab
              · exact h
            exact hasymm a b ((List.pairwise_cons.mp h1).1 b hb1')
              ((List.pairwise_cons.mp h2).1 a ha2')

theorem count_kmers_ok_elim (S : List Nat) (k : Nat) (l : List KmerRecord)
    (h : count_kmers S k = Except.ok l) :
    ∃ ws, kmers S k = Except.ok ws ∧ l = sortRecords (counterRecords ws) := by
  unfold count_kmers at h
  cases hk : kmers S k with
  | error e =>
      rw [hk] at h
      exact absurd h (by simp)
  | ok ws =>
      rw [hk] at h
      simp only [Except.ok.injEq] at h
      exact ⟨ws, rfl, h.symm⟩

/-- Claim C3: every successful `count_kmers` result is totally ordered by count
descending with ascending byte-lexicographic k-mer as tie-break: for any two
adjacent entries `(a, b)`, either `count a > count b`, or `count a = count b`
and `a.seq` is lexicographically smaller than `b.seq`. -/
theorem count_kmers_ranked_order (S : List Nat) (k : Nat) (l : List KmerRecord)
    (h : count_kmers S k = Except.ok l) :
    l.Chain' (fun a b => b.count < a.count ∨ (a.count = b.count ∧ lexLt a.seq b.seq = true)) := by
  obtain ⟨ws, _, hl⟩ := count_kmers_ok_elim S k l h
  subst hl
  exact (sortRecords_pairwise _ (counterRecords_pairwise_ne ws)).chain'

/-- Witness for C3 at `S = "ATCGGATCG"`, `k = 3`: the ranked output is
`[("ATC",2), ("TCG",2), ("CGG",1), ("GAT",1), ("GGA",1)]`. -/
theorem count_kmers_ranked_order_witness :
    List.Chain' (fun a b => b.count < a.count ∨ (a.count = b.count ∧ lexLt a.seq b.seq = true))
      [KmerRecord.mk [65, 84, 67] 2, KmerRecord.mk [84, 67, 71] 2,
       KmerRecord.mk [67, 71, 71] 1, KmerRecord.mk [71, 65, 84] 1,
       KmerRecord.mk [71, 71, 65] 1] :=
  count_kmers_ranked_order [65, 84, 67, 71, 71, 65, 84, 67, 71] 3
    [KmerRecord.mk [65, 84, 67] 2, KmerRecord.mk [84, 67, 71] 2,
     KmerRecord.mk [67, 71, 71] 1, KmerRecord.mk [71, 65, 84] 1,
     KmerRecord.mk [71, 71, 65] 1] (by decide)

/-- Claim C4: `count_kmers` is deterministic despite the hash map's
unspecified iteration order: whatever order `ps` the counter's entries are
drained in (any permutation of the table), the doubly-sorted result is exactly
the canonical `count_kmers` output, so two runs on identical input agree. -/
theorem count_kmers_deterministic (S : List Nat) (k : Nat) (ws : List (List Nat))
    (hws : kmers S k = Except.ok ws) (ps : List KmerRecord)
    (hp : ps.Perm (counterRecords ws)) :
    Except.ok (sortRecords ps) = count_kmers S k := by
  have hcanon : count_kmers S k = Except.ok (sortRecords (counterRecords ws)) := by
    unfold count_kmers
    rw [hws]
  rw [hcanon]
  have hne_c := counterRecords_pairwise_ne ws
  have hne_p : ps.Pairwise (fun a b => a.seq ≠ b.seq) :=
    (List.Perm.pairwise_iff (fun hxy => Ne.symm hxy) hp).mpr hne_c
  have h1 : (sortRecords ps).Pairwise rankedLt := sortRecords_pairwise ps hne_p
  have h2 : (sortRecords (counterRecords ws)).Pairwise rankedLt :=
    sortRecords_pairwise _ hne_c
  have hperm : (sortRecords ps).Perm (sortRecords (counterRecords ws)) :=
    (sortRecords_perm ps).trans (hp.trans (sortRecords_perm (counterRecords ws)).symm)
  rw [eq_of_perm_of_pairwise rankedLt rankedLt_asymm _ _ hperm h1 h2]

/-- Witness for C4 at `S = "ATCGGATCG"`, `k = 3`, draining the counter in
reversed order. -/
theorem count_kmers_deterministic_witness :
    Except.ok (sortRecords
      [KmerRecord.mk [71, 65, 84] 1, KmerRecord.mk [71, 71, 65] 1,
       KmerRecord.mk [67, 71, 71] 1, KmerRecord.mk [84, 67, 71] 2,
       KmerRecord.mk [65, 84, 67] 2]) =
      count_kmers [65, 84, 67, 71, 71, 65, 84, 67, 71] 3 :=
  count_kmers_deterministic [65, 84, 67, 71, 71, 65, 84, 67, 71] 3
    [[65, 84, 67], [84, 67, 71], [67, 71, 71], [71, 71, 65], [71, 65, 84],
     [65, 84, 67], [84, 67, 71]] (by decide)
    [KmerRecord.mk [71, 65, 84] 1, KmerRecord.mk [71, 71, 65] 1,
     KmerRecord.mk [67, 71, 71] 1, KmerRecord.mk [84, 67, 71] 2,
     KmerRecord.mk [65, 84, 67] 2] (by decide)

theorem count_beq_of_decEq (x : List Nat) : ∀ l : List (List Nat),
    List.count x l = @List.count (List Nat) instBEqOfDecidableEq x l := by
  intro l
  induction l with
  | nil => rfl
  | cons y ys ih =>
      simp only [List.count_cons]
      rw [ih]
      by_cases h : y = x <;> simp [h]

theorem counterRecords_sum (ws : List (List Nat)) :
    ((counterRecords ws).map KmerRecord.count).sum = ws.length := by
  unfold counterRecords
  rw [List.map_map]
  have hfe : (KmerRecord.count ∘ fun w => KmerRecord.mk w (ws.count w)) =
      fun x => List.count x ws := rfl
  rw [hfe]
  have hx : (fun x => List.count x ws) =
      (fun x => @List.count (List Nat) instBEqOfDecidableEq x ws) :=
    funext (fun x => count_beq_of_decEq x ws)
  rw [hx]
  exact List.sum_map_count_dedup_eq_length ws

/-- Claim C2 counterexample: at `S = "A"`, `k = 2` the quantity
`|S| - k + 1 = 0` is non-negative and `k ≥ 1`, yet `count_kmers` produces no
frequency table at all, empty or otherwise: it returns `KmerLengthTooLong`. -/
theorem count_kmers_sum_counterexample :
    count_kmers [65] 2 = Except.error (KmerError.KmerLengthTooLong 2 1) ∧
    ¬ ∃ l : List KmerRecord, count_kmers [65] 2 = Except.ok l := by
  have h : count_kmers [65] 2 = Except.error (KmerError.KmerLengthTooLong 2 1) := by decide
  refine ⟨h, ?_⟩
  rintro ⟨l, hl⟩
  rw [h] at hl
  exact absurd hl (by simp)

/-- Claim C2 (amended): for `1 ≤ k ≤ |S|` the sum of all counts in the table
produced by `count_kmers S k` equals `|S| - k + 1`; when the sequence is
shorter than `k` the function returns an error and produces no table (rather
than an empty table). -/
theorem count_kmers_sum (S : List Nat) (k : Nat) :
    (1 ≤ k → k ≤ S.length → ∃ l, count_kmers S k = Except.ok l ∧
      (l.map KmerRecord.count).sum = S.length - k + 1) ∧
    (S.length < k → ∀ l, count_kmers S k ≠ Except.ok l) := by
  constructor
  · intro hk hkS
    have hk0 : ¬ k = 0 := by omega
    have hlen : ¬ S.length < k := by omega
    have hkm : kmers S k = Except.ok (windows k S) := by simp [kmers, hk0, hlen]
    refine ⟨sortRecords (counterRecords (windows k S)), ?_, ?_⟩
    · unfold count_kmers
      rw [hkm]
    · have hperm := (sortRecords_perm (counterRecords (windows k S))).map KmerRecord.count
      rw [hperm.sum_eq, counterRecords_sum, windows_length k hk S]
      omega
  · intro hS l
    have hk0 : ¬ k = 0 := by omega
    have hkm : kmers S k = Except.error (KmerError.KmerLengthTooLong k S.length) := by
      simp [kmers, hk0, hS]
    unfold count_kmers
    rw [hkm]
    simp

/-- Witness for C2 at `S = "ATC"`, `k = 2`. -/
theorem count_kmers_sum_witness :
    ∃ l, count_kmers [65, 84, 67] 2 = Except.ok l ∧
      (l.map KmerRecord.count).sum = ([65, 84, 67] : List Nat).length - 2 + 1 :=
  (count_kmers_sum [65, 84, 67] 2).1 (by decide) (by decide)

theorem check_bases_eq (seq : List Nat) :
    check_bases seq =
      if (seq.filter (fun b => !validBase b)).isEmpty then Except.ok ()
      else Except.error (KmerError.IncorrectBases (seq.filter (fun b => !validBase b))) := rfl

/-- Claim C7 counterexample: for `S = "NN"` the offending symbol `N` (byte 78)
occurs twice and `check_bases` reports it twice, so the carried collection is
not duplicate-free: distinct offenders are not reported at most once. -/
theorem check_bases_dedup_counterexample :
    check_bases [78, 78] = Except.error (KmerError.IncorrectBases [78, 78]) ∧
    ¬ ∃ bs : List Nat, check_bases [78, 78] = Except.error (KmerError.IncorrectBases bs) ∧
      bs.Nodup := by
  have h : check_bases [78, 78] = Except.error (KmerError.IncorrectBases [78, 78]) := by decide
  refine ⟨h, ?_⟩
  rintro ⟨bs, hb, hnd⟩
  rw [h] at hb
  have hbs : [78, 78] = bs :=
    KmerError.IncorrectBases.inj (Except.error.inj hb)
  rw [← hbs] at hnd
  exact absurd hnd (by decide)

/-- Claim C7 (amended): `check_bases` fails with `IncorrectBases` exactly when
the sequence contains a symbol outside `ATCG`, and the carried bases are the
offending occurrences of the sequence: non-empty, every reported byte is an
invalid byte of the sequence, and each invalid symbol is reported once per
occurrence (a symbol occurring twice is reported twice, not deduplicated). -/
theorem check_bases_spec (seq : List Nat) :
    ((∃ b ∈ seq, validBase b = false) ↔
      ∃ bs, check_bases seq = Except.error (KmerError.IncorrectBases bs)) ∧
    ∀ bs, check_bases seq = Except.error (KmerError.IncorrectBases bs) →
      bs ≠ [] ∧ (∀ b ∈ bs, b ∈ seq ∧ validBase b = false) ∧
      ∀ b, validBase b = false → List.count b bs = List.count b seq := by
  constructor
  · constructor
    · rintro ⟨b, hbseq, hbv⟩
      refine ⟨seq.filter (fun x => !validBase x), ?_⟩
      rw [check_bases_eq]
      have hne : ¬ (seq.filter (fun x => !validBase x)).isEmpty = true := by
        rw [List.isEmpty_iff]
        intro hnil
        have hmem : b ∈ seq.filter (fun x => !validBase x) :=
          List.mem_filter.mpr ⟨hbseq, by simp [hbv]⟩
        rw [hnil] at hmem
        exact absurd hmem (by simp)
      rw [if_neg hne]
    · rintro ⟨bs, hbs⟩
      by_contra hno
      push_neg at hno
      have hall : ∀ b ∈ seq, validBase b = true := by
        intro b hb
        have := hno b hb
        cases hv : validBase b
        · exact absurd hv this
        · rfl
      have hnil : seq.filter (fun x => !validBase x) = [] := by
        rw [List.filter_eq_nil_iff]
        intro a ha
        simp [hall a ha]
      rw [check_bases_eq, hnil] at hbs
      exact absurd hbs (by simp)
  · intro bs hbs
    rw [check_bases_eq] at hbs
    by_cases he : (seq.filter (fun b => !validBase b)).isEmpty = true
    · rw [if_pos he] at hbs
      exact absurd hbs (by simp)
    · rw [if_neg he] at hbs
      have hbs' : seq.filter (fun b => !validBase b) = bs :=
        KmerError.IncorrectBases.inj (Except.error.inj hbs)
      subst hbs'
      refine ⟨?_, ?_, ?_⟩
      · intro hnil
        exact he (List.isEmpty_iff.mpr hnil)
      · intro b hb
        have hm := List.mem_filter.mp hb
        refine ⟨hm.1, ?_⟩
        have := hm.2
        cases hv : validBase b
        · rfl
        · rw [hv] at this
          exact absurd this (by simp)
      · intro b hbv
        exact List.count_filter (by simp [hbv])

/-- Witness for C7 at `S = "NN"`. -/
theorem check_bases_spec_witness :
    ([78, 78] : List Nat) ≠ [] ∧
    (∀ b ∈ ([78, 78] : List Nat), b ∈ ([78, 78] : List Nat) ∧ validBase b = false) ∧
    ∀ b, validBase b = false → List.count b [78, 78] = List.count b [78, 78] :=
  (check_bases_spec [78, 78]).2 [78, 78] (by decide)

/-- Claim C8: base validation is a non-fatal advisory that never alters the
counting result: the per-record pipeline pairs the `check_bases` warning with
the `count_kmers` result computed from the raw bytes, counting succeeds for
valid `k` even when invalid bases are present, and for `S = "ATCNTTZ"`,
`k = 3` the offending set is `{N, Z}` (bytes 78, 90) while counting proceeds
over the literal bytes. -/
theorem run_record_frame (seq : List Nat) (k : Nat) :
    (run_record seq k).2 = count_kmers seq k ∧
    (1 ≤ k → k ≤ seq.length → ∃ l, (run_record seq k).2 = Except.ok l) ∧
    run_record [65, 84, 67, 78, 84, 84, 90] 3 =
      (some (KmerError.IncorrectBases [78, 90]),
       Except.ok [KmerRecord.mk [65, 84, 67] 1, KmerRecord.mk [67, 78, 84] 1,
         KmerRecord.mk [78, 84, 84] 1, KmerRecord.mk [84, 67, 78] 1,
         KmerRecord.mk [84, 84, 90] 1]) := by
  refine ⟨rfl, ?_, by decide⟩
  intro hk hkS
  have hk0 : ¬ k = 0 := by omega
  have hlen : ¬ seq.length < k := by omega
  refine ⟨sortRecords (counterRecords (windows k seq)), ?_⟩
  show count_kmers seq k = _
  have hkm : kmers seq k = Except.ok (windows k seq) := by simp [kmers, hk0, hlen]
  unfold count_kmers
  rw [hkm]

/-- Witness for C8 at `S = "ATCNTTZ"`, `k = 3`. -/
theorem run_record_frame_witness :
    ∃ l, (run_record [65, 84, 67, 78, 84, 84, 90] 3).2 = Except.ok l :=
  (run_record_frame [65, 84, 67, 78, 84, 84, 90] 3).2.1 (by decide) (by decide)

end KmerCount
